import Mathlib

/-!
Verification development for the pre-populate tool of the trains-server
repository (file server/mongo/initialize/pre_populate.py).  The tool
exports a closed-over set of Project and Task (experiment) records into a
zip archive of JSON-array members, and imports such archives back.

The shallow embedding below translates the source functions:
  - resolveType       embeds PrePopulate._resolve_type
  - projectStage, experimentStage, resolveEntities
                      embed PrePopulate._resolve_entities
  - cleanupTask       embeds PrePopulate._cleanup_task
  - exportMembers, exportToZip
                      embed PrePopulate._export / export_to_zip
  - stripLine, splitLines, importMember, importArchive
                      embed PrePopulate._import / import_from_zip
Timestamps are modelled as natural numbers and datetime.utcnow() as an
explicit parameter `now`.  Process termination via exit(1) is modelled as
an Except error.  The JSON serializer of the persistence layer (to_json /
from_json) is an external collaborator and is modelled as a Codec record
passed in, with its guarantees taken as explicit hypotheses.
-/

namespace PrePopulate

/-- Execution sub-structure of a task; the fields the source touches. -/
structure Execution where
  model : Option String
  model_desc : Option String
  model_labels : Option String
deriving DecidableEq

/-- Output sub-structure of a task; the field the source touches. -/
structure Output where
  model : Option String
deriving DecidableEq

/-- A Task (experiment) record, with the fields the source reads or writes.
`project` is the owning-project reference, nullable (and possibly empty). -/
structure Task where
  id : String
  name : String
  project : Option String
  execution : Option Execution
  output : Option Output
  status : String
  comment : String
  completed : Option Nat
  started : Option Nat
  created : Option Nat
  last_iteration : Nat
  last_update : Option Nat
  status_changed : Option Nat
  status_message : String
  status_reason : String
  user : String
deriving DecidableEq

/-- A Project record, with the fields the source reads. -/
structure Project where
  id : String
  name : String
deriving DecidableEq

/-- The database state: the Project and Task collections. -/
structure DB where
  projects : List Project
  tasks : List Task
deriving DecidableEq

/-- The selection set built by _resolve_entities: one deduplicated-by-id
set of records per entity kind (the defaultdict of Python sets; document
equality in the persistence layer is by primary key). -/
structure Entities where
  projects : List Project
  tasks : List Task
deriving DecidableEq

/-- Adding one element to a set of documents: a no-op when a document with
the same primary key is already present. -/
def insertById (getId : α → String) (s : List α) (x : α) : List α :=
  if (s.map getId).contains (getId x) then s else s ++ [x]

/-- set.update for sets of documents keyed by primary key. -/
def updateById (getId : α → String) (s : List α) (xs : List α) : List α :=
  xs.foldl (insertById getId) s

/-- The two fatal resolution failures of _resolve_type (each is an exit(1)
in the source). -/
inductive ResolveError where
  | notFound (selector : String)
  | ambiguous (selector : String)
deriving DecidableEq

/-- The loop of _resolve_type over the selectors not matched by identifier:
look each one up by exact name; zero matches or more than one match is
fatal, exactly one match is appended to the accumulated items. -/
def resolveMissing (records : List α) (getName : α → String) :
    List α → List String → Except ResolveError (List α)
  | items, [] => .ok items
  | items, n :: rest =>
    match records.filter (fun r => getName r == n) with
    | [] => .error (.notFound n)
    | [r] => resolveMissing records getName (items ++ [r]) rest
    | _ => .error (.ambiguous n)

/-- PrePopulate._resolve_type: deduplicate the selectors, fetch all records
whose identifier is among them in one batch, then resolve each remaining
selector by exact name via `resolveMissing`. -/
def resolveType (records : List α) (getId getName : α → String)
    (ids : List String) : Except ResolveError (List α) :=
  let idSet := ids.dedup
  let items := records.filter (fun r => idSet.contains (getId r))
  let resolved := items.map getId
  let missing := idSet.filter (fun s => !(resolved.contains s))
  resolveMissing records getName items missing

/-- The identifier list of the project-driven expansion query:
list(set(filter(None, (p.id for p in entities[Project])))). -/
def projectExpansionIds (ps : List Project) : List String :=
  ((ps.map Project.id).filter (fun s => !(s == ""))).dedup

/-- The identifier list of the owning-project backfill query:
list(set(filter(None, (p.project for p in entities[Task])))). -/
def backfillRefIds (ts : List Task) : List String :=
  ((ts.filterMap Task.project).filter (fun s => !(s == ""))).dedup

/-- The body of the `if projects:` branch of PrePopulate._resolve_entities
after its resolver call: put the resolved seed projects into the Project
set, fetch every task whose owning-project reference is among the
(non-empty) seed project ids, and add those whose identifier is not in the
raw experiment-selector list. -/
def projectStageFn (db : DB) (experiments : List String)
    (rps : List Project) : Entities :=
  let pset := updateById Project.id [] rps
  let pids := projectExpansionIds pset
  let objs := db.tasks.filter (fun t =>
    match t.project with
    | some s => pids.contains s
    | none => false)
  ⟨pset, updateById Task.id []
    (objs.filter (fun o => !(experiments.contains o.id)))⟩

/-- The `if projects:` branch of PrePopulate._resolve_entities: a no-op on
the empty selection when no project selectors are given. -/
def projectStage (db : DB) (experiments projects : List String) :
    Except ResolveError Entities :=
  if projects.isEmpty then .ok ⟨[], []⟩
  else
    (resolveType db.projects Project.id Project.name projects).map
      (projectStageFn db experiments)

/-- The body of the `if experiments:` branch of
PrePopulate._resolve_entities after its resolver call: add the resolved
tasks to the Task set, fetch every project whose identifier is a
(non-empty) owning-project reference of some selected task and is not
already in the Project set, and add it. -/
def experimentStageFn (db : DB) (e1 : Entities) (rts : List Task) :
    Entities :=
  let tset := updateById Task.id e1.tasks rts
  let refs := backfillRefIds tset
  let objs := db.projects.filter (fun p => refs.contains p.id)
  let pids := e1.projects.map Project.id
  ⟨updateById Project.id e1.projects
    (objs.filter (fun o => !(pids.contains o.id))), tset⟩

/-- The `if experiments:` branch of PrePopulate._resolve_entities: a no-op
when no experiment selectors are given. -/
def experimentStage (db : DB) (experiments : List String) (e1 : Entities) :
    Except ResolveError Entities :=
  if experiments.isEmpty then .ok e1
  else
    (resolveType db.tasks Task.id Task.name experiments).map
      (experimentStageFn db e1)

/-- PrePopulate._resolve_entities: the project branch, then the experiment
branch. -/
def resolveEntities (db : DB) (experiments projects : List String) :
    Except ResolveError Entities :=
  (projectStage db experiments projects).bind (experimentStage db experiments)

/-- Modelled from the spec: the initial lifecycle state of a task.  The
class TaskStatus lives in database.model.task.task, which is outside the
given sources; the spec calls its `created` member the initial lifecycle
state. -/
def TaskStatus.created : String := "created"

/-- PrePopulate._cleanup_task, with datetime.utcnow() passed in as `now`. -/
def cleanupTask (now : Nat) (task : Task) : Task :=
  { task with
    completed := none
    started := none
    execution := task.execution.map (fun e =>
      { e with model := none, model_desc := none, model_labels := none })
    output := task.output.map (fun o => { o with model := none })
    status := TaskStatus.created
    comment := "Auto generated by Allegro.ai"
    created := some now
    last_iteration := 0
    last_update := some now
    status_changed := some now
    status_message := ""
    status_reason := ""
    user := "" }

/-- The two entity kinds of the tool. -/
inductive Kind where
  | project
  | task
deriving DecidableEq

/-- An archive member: a name inside the zip file and its textual content. -/
structure Member where
  name : String
  content : List Char
deriving DecidableEq

/-- Module of the Project document class, per the source imports. -/
def projectModuleName : String := "database.model.project"

/-- Module of the Task document class, per the source imports. -/
def taskModuleName : String := "database.model.task.task"

/-- Member name written for the Project kind. -/
def projectFileName : String := projectModuleName ++ "." ++ "Project" ++ ".json"

/-- Member name written for the Task kind. -/
def taskFileName : String := taskModuleName ++ "." ++ "Task" ++ ".json"

/-- The external JSON serializer of the persistence layer (to_json and
from_json of a document class), as an abstract codec. -/
structure Codec (α : Type) where
  toJson : α → List Char
  fromJson : List Char → Option α

/-- The body of the writing loop of PrePopulate._export: each JSON form,
followed by a comma whenever the record is not the last one, then a
newline. -/
def bodyLines : List (List Char) → List Char
  | [] => []
  | [j] => j ++ ['\n']
  | j :: rest => j ++ ',' :: '\n' :: bodyLines rest

/-- One member body as PrePopulate._export writes it. -/
def memberBody (jsons : List (List Char)) : List Char :=
  ('[' :: '\n' :: bodyLines jsons) ++ [']', '\n']

/-- PrePopulate._export after resolution: one member per non-empty kind
(empty kinds are skipped), each task sanitized by _cleanup_entity before
serialization, projects left as-is (the _cleanup_entity dispatch is a
no-op for the Project kind). -/
def exportMembers (pc : Codec Project) (tc : Codec Task) (now : Nat)
    (ents : Entities) : List Member :=
  (if ents.projects.isEmpty then []
   else [⟨projectFileName, memberBody (ents.projects.map pc.toJson)⟩]) ++
  (if ents.tasks.isEmpty then []
   else [⟨taskFileName,
          memberBody ((ents.tasks.map (cleanupTask now)).map tc.toJson)⟩])

/-- PrePopulate.export_to_zip / _export: resolve all entities first; only
when resolution succeeds are any members produced.  A resolution failure
(exit(1) in the source) yields the error and no members. -/
def exportToZip (pc : Codec Project) (tc : Codec Task) (db : DB)
    (experiments projects : List String) (now : Nat) :
    Except ResolveError (List Member) :=
  (resolveEntities db experiments projects).map (exportMembers pc tc now)

/-- Python str.strip with no argument: remove surrounding whitespace. -/
def stripWs (cs : List Char) : List Char :=
  ((cs.dropWhile Char.isWhitespace).reverse.dropWhile Char.isWhitespace).reverse

/-- Python str.lstrip with a single-character argument. -/
def lstripChar (c : Char) (cs : List Char) : List Char :=
  cs.dropWhile (fun d => d == c)

/-- Python str.rstrip with a single-character argument. -/
def rstripChar (c : Char) (cs : List Char) : List Char :=
  (cs.reverse.dropWhile (fun d => d == c)).reverse

/-- The line normalization of PrePopulate._import:
item.strip().lstrip("[").rstrip("]").rstrip(",").strip(). -/
def stripLine (cs : List Char) : List Char :=
  stripWs (rstripChar ',' (rstripChar ']' (lstripChar '[' (stripWs cs))))

/-- Splitting a member content into physical lines, as f.readlines() hands
them to the loop of PrePopulate._import (the newline each kept line also
carries in Python is whitespace that strip removes, so it is dropped here;
a trailing empty piece is produced for content ending in a newline, and
the loop skips it as blank). -/
def splitLines : List Char → List (List Char)
  | [] => [[]]
  | c :: rest =>
    let r := splitLines rest
    if c == '\n' then [] :: r
    else
      match r with
      | rh :: rt => (c :: rh) :: rt
      | [] => [[c]]

/-- os.path.splitext(...)[0]: the member name with its extension removed. -/
def dropExt (cs : List Char) : List Char :=
  let revName := cs.reverse
  let ext := revName.takeWhile (fun c => !(c == '.'))
  if ext.length == revName.length then cs
  else (revName.drop (ext.length + 1)).reverse

/-- str.rpartition(".") restricted to the two components the source uses:
the part before the last dot and the part after it (both empty-prefixed
to ("", s) when there is no dot, as in Python). -/
def rpartitionDot (cs : List Char) : List Char × List Char :=
  let revName := cs.reverse
  let post := revName.takeWhile (fun c => !(c == '.'))
  if post.length == revName.length then ([], cs)
  else ((revName.drop (post.length + 1)).reverse, post.reverse)

/-- Modelled from the spec: the dynamic type-registry collaborator
(importlib.import_module plus getattr) that maps a module locator and a
kind name to a document class; the two registered kinds and their module
locators come from the imports in the source file. -/
def lookupClass (moduleName className : List Char) : Option Kind :=
  if moduleName = projectModuleName.data ∧ className = "Project".data then
    some .project
  else if moduleName = taskModuleName.data ∧ className = "Task".data then
    some .task
  else none

/-- Member-name parsing of PrePopulate._import: drop the extension, split
on the last remaining dot, resolve the class. -/
def classFor (name : String) : Option Kind :=
  let fullName := dropExt name.data
  let parts := rpartitionDot fullName
  lookupClass parts.1 parts.2

/-- The user override of PrePopulate._import: overwrite the user field
before persisting exactly when an override identity was supplied and the
document type carries a user attribute. -/
def applyUserOverride (hasUser : Bool) (setUser : α → String → α)
    (userId : Option String) (d : α) : α :=
  match userId with
  | some u => if hasUser then setUser d u else d
  | none => d

/-- The per-member loop of PrePopulate._import: normalize each line, skip
blank results, deserialize, apply the user override, persist.  The list
collects the persisted documents in order; the flag is false when a line
failed to deserialize (a raised exception in Python), in which case no
later document of the member is persisted. -/
def importMember (fromJson : List Char → Option α) (hasUser : Bool)
    (setUser : α → String → α) (userId : Option String) :
    List (List Char) → List α × Bool
  | [] => ([], true)
  | l :: rest =>
    let item := stripLine l
    if item.isEmpty then importMember fromJson hasUser setUser userId rest
    else
      match fromJson item with
      | none => ([], false)
      | some doc =>
        let saved := applyUserOverride hasUser setUser userId doc
        let restRes := importMember fromJson hasUser setUser userId rest
        (saved :: restRes.1, restRes.2)

/-- Modelled from the spec: whether a document kind carries an owning-user
attribute (the hasattr check of the source).  The task model carries
`user` (the sanitizer in the source writes it); the spec lists no
owning-user field for projects. -/
def kindHasUser : Kind → Bool
  | .task => true
  | .project => false

/-- Writing the user field of a task document. -/
def setTaskUser (t : Task) (u : String) : Task := { t with user := u }

/-- Writing the user field of a project document: the modelled project
carries no user attribute, so the override path is never taken for it and
this is the identity. -/
def setProjectUser (p : Project) (_u : String) : Project := p

/-- A document reconstructed by the importer, tagged with its kind. -/
inductive ImportedDoc where
  | project (p : Project)
  | task (t : Task)
deriving DecidableEq

/-- PrePopulate._import / import_from_zip: for each member, resolve the
document class from the member name and run the per-member loop.  The
list collects all persisted documents in order; the flag is false when a
member name failed to resolve or a line failed to deserialize, in which
case nothing after the failure is persisted. -/
def importArchive (pc : Codec Project) (tc : Codec Task)
    (userId : Option String) : List Member → List ImportedDoc × Bool
  | [] => ([], true)
  | m :: rest =>
    match classFor m.name with
    | none => ([], false)
    | some .project =>
      let res := importMember pc.fromJson (kindHasUser .project) setProjectUser
        userId (splitLines m.content)
      if res.2 then
        let restRes := importArchive pc tc userId rest
        (res.1.map ImportedDoc.project ++ restRes.1, restRes.2)
      else (res.1.map ImportedDoc.project, false)
    | some .task =>
      let res := importMember tc.fromJson (kindHasUser .task) setTaskUser
        userId (splitLines m.content)
      if res.2 then
        let restRes := importArchive pc tc userId rest
        (res.1.map ImportedDoc.task ++ restRes.1, restRes.2)
      else (res.1.map ImportedDoc.task, false)

/-- Spec-side definition of the member body format, following the words of
the specification: an opening bracket and a newline, then each record
JSON form comma-separated except after the last, each on its own line,
then a closing bracket and a newline. -/
def specJsonArray (jsons : List (List Char)) : List Char :=
  ('[' :: '\n' :: List.intercalate [',', '\n'] jsons) ++ ['\n', ']', '\n']

/-- Spec-side definition of reading back the archived documents of one
member with no modification: normalize each line, skip blanks,
deserialize; stop at a failing line. -/
def readArchivedDocs (fromJson : List Char → Option α) :
    List (List Char) → List α × Bool
  | [] => ([], true)
  | l :: rest =>
    let item := stripLine l
    if item.isEmpty then readArchivedDocs fromJson rest
    else
      match fromJson item with
      | none => ([], false)
      | some doc =>
        let restRes := readArchivedDocs fromJson rest
        (doc :: restRes.1, restRes.2)

/-- The line shapes a member body yields between the brackets: every JSON
form still carries its separating comma except the last one. -/
def itemLines : List (List Char) → List (List Char)
  | [] => []
  | [j] => [j]
  | j :: rest => (j ++ [',']) :: itemLines rest

/-- The guarantees the external to_json collaborator gives for one record:
its textual form is non-empty, single-line, and invariant under the line
normalization of the importer (with and without the separating comma). -/
def cleanJson (j : List Char) : Prop :=
  j ≠ [] ∧ '\n' ∉ j ∧ stripLine j = j ∧ stripLine (j ++ [',']) = j

/-- Sample project used in concrete instantiations. -/
def sampleProject : Project := ⟨"p1", "proj one"⟩

/-- Sample task owned by `sampleProject`, used in concrete instantiations. -/
def sampleTask : Task :=
  ⟨"t1", "task one", some "p1", some ⟨some "m", some "d", some "l"⟩,
   some ⟨some "om"⟩, "running", "c", some 5, some 3, some 1, 7, some 2,
   some 2, "msg", "rsn", "alice"⟩

/-- A project whose identifier is the empty string. -/
def emptyIdProject : Project := ⟨"", "empty-id project"⟩

/-- A task whose owning-project reference is the empty string. -/
def emptyRefTask : Task :=
  ⟨"te", "empty-ref task", some "", none, none, "running", "c", none, none,
   none, 0, none, none, "", "", "bob"⟩

/-- A concrete serializer instance for projects, used in concrete
instantiations of codec-parameterized theorems. -/
def tinyProjectCodec : Codec Project :=
  ⟨fun _ => ['P'], fun cs => if cs = ['P'] then some sampleProject else none⟩

/-- A concrete serializer instance for tasks, used in concrete
instantiations of codec-parameterized theorems. -/
def tinyTaskCodec : Codec Task :=
  ⟨fun _ => ['T'],
   fun cs => if cs = ['T'] then some (cleanupTask 0 sampleTask) else none⟩

/-- Whether a fallible computation succeeded (no exit(1) was reached). -/
def isOk {ε α : Type} : Except ε α → Bool
  | .ok _ => true
  | .error _ => false

section Theorems

/-- Boolean membership test agrees with list membership. -/
theorem contains_eq_true_iff {α : Type} [BEq α] [LawfulBEq α] {as : List α}
    {a : α} : as.contains a = true ↔ a ∈ as := List.elem_iff

/-- Negated boolean membership test agrees with non-membership. -/
theorem contains_eq_false_iff {α : Type} [BEq α] [LawfulBEq α]
    {as : List α} {a : α} : as.contains a = false ↔ a ∉ as := by
  rw [← Bool.not_eq_true, contains_eq_true_iff]

theorem updateById_nil {α : Type} (getId : α → String) (s : List α) :
    updateById getId s [] = s := rfl

theorem updateById_cons {α : Type} (getId : α → String) (s : List α)
    (y : α) (ys : List α) :
    updateById getId s (y :: ys) = updateById getId (insertById getId s y) ys :=
  rfl

theorem mem_insertById {α : Type} {getId : α → String} {s : List α}
    {x y : α} (h : x ∈ s) : x ∈ insertById getId s y := by
  unfold insertById
  split
  · exact h
  · exact List.mem_append_left _ h

theorem mem_updateById_left {α : Type} {getId : α → String} {s xs : List α}
    {x : α} (h : x ∈ s) : x ∈ updateById getId s xs := by
  induction xs generalizing s with
  | nil => exact h
  | cons y ys ih => exact ih (mem_insertById h)

theorem mem_of_mem_insertById {α : Type} {getId : α → String} {s : List α}
    {x y : α} (h : x ∈ insertById getId s y) : x ∈ s ∨ x = y := by
  unfold insertById at h
  split at h
  · exact .inl h
  · rcases List.mem_append.mp h with h' | h'
    · exact .inl h'
    · exact .inr (List.mem_singleton.mp h')

theorem mem_of_mem_updateById {α : Type} {getId : α → String}
    {s xs : List α} {x : α} (h : x ∈ updateById getId s xs) :
    x ∈ s ∨ x ∈ xs := by
  induction xs generalizing s with
  | nil => exact .inl h
  | cons y ys ih =>
    rw [updateById_cons] at h
    rcases ih h with h' | h'
    · rcases mem_of_mem_insertById h' with h'' | h''
      · exact .inl h''
      · exact .inr (h'' ▸ List.mem_cons_self y ys)
    · exact .inr (List.mem_cons_of_mem y h')

theorem id_mem_insertById {α : Type} (getId : α → String) (s : List α)
    (y : α) : getId y ∈ (insertById getId s y).map getId := by
  unfold insertById
  by_cases h : (s.map getId).contains (getId y) = true
  · rw [if_pos h]
    exact contains_eq_true_iff.mp h
  · rw [if_neg h]
    simp

theorem id_mem_insertById_mono {α : Type} {getId : α → String}
    {s : List α} {a : String} (y : α) (h : a ∈ s.map getId) :
    a ∈ (insertById getId s y).map getId := by
  unfold insertById
  split
  · exact h
  · rw [List.map_append]
    exact List.mem_append_left _ h

theorem id_mem_updateById_mono {α : Type} {getId : α → String}
    {s xs : List α} {a : String} (h : a ∈ s.map getId) :
    a ∈ (updateById getId s xs).map getId := by
  induction xs generalizing s with
  | nil => exact h
  | cons y ys ih => exact ih (id_mem_insertById_mono y h)

theorem id_mem_updateById {α : Type} {getId : α → String} {s xs : List α}
    {x : α} (h : x ∈ xs) : getId x ∈ (updateById getId s xs).map getId := by
  induction xs generalizing s with
  | nil => cases h
  | cons y ys ih =>
    rcases List.mem_cons.mp h with h' | h'
    · rw [h', updateById_cons]
      exact id_mem_updateById_mono (id_mem_insertById getId s y)
    · exact ih h'

theorem mem_updateById_of_mem {α : Type} {getId : α → String}
    {s xs : List α} {x : α} (hx : x ∈ xs)
    (hnd : (xs.map getId).Nodup) (hs : ∀ y ∈ s, getId y ≠ getId x) :
    x ∈ updateById getId s xs := by
  induction xs generalizing s with
  | nil => cases hx
  | cons y ys ih =>
    rw [List.map_cons, List.nodup_cons] at hnd
    rw [updateById_cons]
    rcases List.mem_cons.mp hx with h' | h'
    · subst h'
      have hc : ¬((s.map getId).contains (getId x) = true) := by
        intro hcon
        rcases List.mem_map.mp (contains_eq_true_iff.mp hcon) with ⟨z, hz, hzx⟩
        exact hs z hz hzx
      have hmem : x ∈ insertById getId s x := by
        unfold insertById
        rw [if_neg hc]
        exact List.mem_append_right _ (List.mem_singleton.mpr rfl)
      exact mem_updateById_left hmem
    · apply ih h' hnd.2
      intro z hz
      rcases mem_of_mem_insertById hz with hz' | hz'
      · exact hs z hz'
      · subst hz'
        intro hcon
        exact hnd.1 (hcon ▸ List.mem_map.mpr ⟨x, h', rfl⟩)

theorem except_map_ok {α β ε : Type} {f : α → β} {x : Except ε α} {b : β}
    (h : x.map f = .ok b) : ∃ a, x = .ok a ∧ f a = b := by
  cases x with
  | error e => cases h
  | ok a =>
    refine ⟨a, rfl, ?_⟩
    cases h
    rfl

theorem except_bind_ok {α β ε : Type} {x : Except ε α}
    {f : α → Except ε β} {b : β} (h : x.bind f = .ok b) :
    ∃ a, x = .ok a ∧ f a = .ok b := by
  cases x with
  | error e => cases h
  | ok a => exact ⟨a, rfl, h⟩

theorem mem_of_resolveMissing_ok {α : Type} {records : List α}
    {getName : α → String} {acc : List α} {ms : List String} {l : List α}
    (h : resolveMissing records getName acc ms = .ok l) :
    ∀ x ∈ l, x ∈ acc ∨ x ∈ records := by
  induction ms generalizing acc with
  | nil =>
    cases h
    exact fun x hx => .inl hx
  | cons n rest ih =>
    unfold resolveMissing at h
    split at h
    · cases h
    · rename_i r heq
      intro x hx
      rcases ih h x hx with h' | h'
      · rcases List.mem_append.mp h' with h'' | h''
        · exact .inl h''
        · rw [List.mem_singleton.mp h'']
          exact .inr ((List.mem_filter.mp (heq ▸ List.mem_cons_self r [])).1)
      · exact .inr h'
    · cases h

theorem resolveType_sub {α : Type} {records : List α}
    {getId getName : α → String} {ids : List String} {l : List α}
    (h : resolveType records getId getName ids = .ok l) :
    ∀ x ∈ l, x ∈ records := by
  unfold resolveType at h
  intro x hx
  rcases mem_of_resolveMissing_ok h x hx with h' | h'
  · exact (List.mem_filter.mp h').1
  · exact h'

theorem resolveType_nil {α : Type} (records : List α)
    (getId getName : α → String) :
    resolveType records getId getName [] = .ok [] := by
  unfold resolveType
  simp [resolveMissing]

/-- C2: the Sanitizer is idempotent: applying the cleanup twice (at export
times n₁ and then n₂) equals applying it once (at n₂); in particular, with
n₁ = n₂, applying it twice at one export time equals applying it once. -/
theorem sanitizer_idempotent (n₁ n₂ : Nat) (t : Task) :
    cleanupTask n₂ (cleanupTask n₁ t) = cleanupTask n₂ t := by
  cases t with
  | mk i nm pr ex out st cm cp sd cr li lu sc sm sr us =>
    cases ex <;> cases out <;> rfl

/-- C7: the Sanitizer postcondition: after cleanup the completion and
start timestamps are null, the model fields of the execution sub-structure
are cleared when it is present, the model field of the output
sub-structure is cleared when it is present, the status is the initial
lifecycle state "created", the comment is the fixed auto-generated string,
the creation, last-update and status-changed timestamps are the current
export time, the iteration counter is zero, the status message and reason
are empty, and the owning user is cleared. -/
theorem sanitizer_postcondition (now : Nat) (t : Task) :
    (cleanupTask now t).completed = none ∧
    (cleanupTask now t).started = none ∧
    (cleanupTask now t).execution = t.execution.map (fun e =>
      { e with model := none, model_desc := none, model_labels := none }) ∧
    (cleanupTask now t).output = t.output.map (fun o =>
      { o with model := none }) ∧
    (cleanupTask now t).status = TaskStatus.created ∧
    TaskStatus.created = "created" ∧
    (cleanupTask now t).comment = "Auto generated by Allegro.ai" ∧
    (cleanupTask now t).created = some now ∧
    (cleanupTask now t).last_update = some now ∧
    (cleanupTask now t).status_changed = some now ∧
    (cleanupTask now t).last_iteration = 0 ∧
    (cleanupTask now t).status_message = "" ∧
    (cleanupTask now t).status_reason = "" ∧
    (cleanupTask now t).user = "" :=
  ⟨rfl, rfl, rfl, rfl, rfl, rfl, rfl, rfl, rfl, rfl, rfl, rfl, rfl, rfl⟩

/-- The comma placement of the writing loop agrees with the
comma-separated form of the specification. -/
theorem bodyLines_eq_intercalate (j : List Char) (js : List (List Char)) :
    bodyLines (j :: js) = List.intercalate [',', '\n'] (j :: js) ++ ['\n'] := by
  induction js generalizing j with
  | nil => simp [bodyLines, List.intercalate]
  | cons k rest ih =>
    simp only [bodyLines, ih k, List.intercalate, List.intersperse,
      List.flatten, List.append_assoc]
    simp

/-- C8: the Archive Writer produces exactly one member per non-empty
entity kind and none for an empty kind; each member is named from the
fully-qualified type name of the kind with a .json suffix, and its content
is an opening bracket and newline, each record JSON form followed by a
comma for every record except the last, each on its own line, then a
closing bracket and newline, as in the spec-side `specJsonArray`. -/
theorem archive_writer_format (pc : Codec Project) (tc : Codec Task)
    (now : Nat) (ents : Entities) :
    exportMembers pc tc now ents =
      (if ents.projects.isEmpty then []
       else [⟨projectFileName, specJsonArray (ents.projects.map pc.toJson)⟩]) ++
      (if ents.tasks.isEmpty then []
       else [⟨taskFileName,
              specJsonArray ((ents.tasks.map (cleanupTask now)).map tc.toJson)⟩]) ∧
    projectFileName = projectModuleName ++ "." ++ "Project" ++ ".json" ∧
    taskFileName = taskModuleName ++ "." ++ "Task" ++ ".json" := by
  refine ⟨?_, rfl, rfl⟩
  have hbody : ∀ (j : List Char) (js : List (List Char)),
      memberBody (j :: js) = specJsonArray (j :: js) := by
    intro j js
    simp [memberBody, specJsonArray, bodyLines_eq_intercalate,
      List.append_assoc]
  unfold exportMembers
  cases hp : ents.projects with
  | nil => cases ht : ents.tasks with
    | nil => rfl
    | cons t ts => simp [hbody]
  | cons p ps => cases ht : ents.tasks with
    | nil => simp [hbody]
    | cons t ts => simp [hbody]

/-- C3: export atomicity on resolution failure: all selector resolution
happens before any member is written, so when resolution fails (the
exit(1) of the source, modelled as the error value) the export produces
the error and zero archive members. -/
theorem export_atomic_on_resolution_failure (pc : Codec Project)
    (tc : Codec Task) (db : DB) (experiments projects : List String)
    (now : Nat) (e : ResolveError)
    (h : resolveEntities db experiments projects = .error e) :
    exportToZip pc tc db experiments projects now = .error e := by
  unfold exportToZip
  rw [h]
  rfl

/-- C3 witness: the spec scenario: the selector "no-such-name" matches no
identifier and no name, the resolution fails with the not-found error, and
the export yields that error and no archive members. -/
theorem export_atomic_on_resolution_failure_witness :
    resolveEntities ⟨[sampleProject], [sampleTask]⟩ ["no-such-name"] []
      = .error (.notFound "no-such-name") ∧
    exportToZip tinyProjectCodec tinyTaskCodec ⟨[sampleProject], [sampleTask]⟩
      ["no-such-name"] [] 0 = .error (.notFound "no-such-name") :=
  ⟨by rfl,
   export_atomic_on_resolution_failure tinyProjectCodec tinyTaskCodec
     ⟨[sampleProject], [sampleTask]⟩ ["no-such-name"] [] 0
     (.notFound "no-such-name") (by rfl)⟩

/-- C1 (amended): for any Project P resolved into the seed Project set
whose identifier is non-empty, every Experiment of the database whose
owning-project reference equals that identifier ends up in the resulting
Experiment set unless its identifier appears in the raw experiment-selector
list; and every Experiment contributed by the project-driven expansion has
an identifier outside the experiment-selector list (the exclusion).  The
database tasks are assumed unique by identifier (the primary-key
invariant); the non-empty identifier proviso is forced by the source
filtering falsy project identifiers out of the expansion query. -/
theorem closure_project_expansion
    (db : DB) (experiments projects : List String) (P : Project) (t : Task)
    (rps : List Project) (ents : Entities)
    (hnd : (db.tasks.map Task.id).Nodup)
    (hres : resolveType db.projects Project.id Project.name projects = .ok rps)
    (hP : P ∈ rps) (hPid : P.id ≠ "")
    (ht : t ∈ db.tasks) (htp : t.project = some P.id)
    (hex : t.id ∉ experiments)
    (hok : resolveEntities db experiments projects = .ok ents) :
    t ∈ ents.tasks ∧
    (∀ e1, projectStage db experiments projects = .ok e1 →
      ∀ t', t' ∈ e1.tasks → t'.id ∉ experiments) := by
  obtain ⟨e1, h1, h2⟩ := except_bind_ok hok
  constructor
  · by_cases hpe : projects.isEmpty
    · have hpnil := List.isEmpty_iff.mp hpe
      subst hpnil
      rw [resolveType_nil] at hres
      cases hres
      cases hP
    · unfold projectStage at h1
      rw [if_neg hpe] at h1
      obtain ⟨rps', hres', hfeq⟩ := except_map_ok h1
      rw [hres] at hres'
      injection hres' with hres''
      subst hres''
      have hPidIn : P.id ∈ (updateById Project.id [] rps).map Project.id :=
        id_mem_updateById hP
      have hpidmem : P.id ∈ projectExpansionIds (updateById Project.id [] rps) := by
        unfold projectExpansionIds
        rw [List.mem_dedup, List.mem_filter]
        refine ⟨hPidIn, ?_⟩
        simp [hPid]
      have htmem : t ∈ (projectStageFn db experiments rps).tasks := by
        simp only [projectStageFn]
        apply mem_updateById_of_mem
        · rw [List.mem_filter]
          constructor
          · rw [List.mem_filter]
            refine ⟨ht, ?_⟩
            rw [htp]
            exact contains_eq_true_iff.mpr hpidmem
          · rw [Bool.not_eq_true']
            exact contains_eq_false_iff.mpr hex
        · exact (((List.filter_sublist _).trans
            (List.filter_sublist _)).map Task.id).nodup hnd
        · intro y hy
          cases hy
      have hte1 : t ∈ e1.tasks := hfeq ▸ htmem
      unfold experimentStage at h2
      by_cases hee : experiments.isEmpty
      · rw [if_pos hee] at h2
        injection h2 with h2'
        exact h2' ▸ hte1
      · rw [if_neg hee] at h2
        obtain ⟨rts, hrts, hteq⟩ := except_map_ok h2
        rw [← hteq]
        simp only [experimentStageFn]
        exact mem_updateById_left hte1
  · intro e1' h1' t' ht'
    unfold projectStage at h1'
    by_cases hpe : projects.isEmpty
    · rw [if_pos hpe] at h1'
      injection h1' with h1''
      rw [← h1''] at ht'
      simp at ht'
    · rw [if_neg hpe] at h1'
      obtain ⟨rps', _, hfeq⟩ := except_map_ok h1'
      rw [← hfeq] at ht'
      simp only [projectStageFn] at ht'
      rcases mem_of_mem_updateById ht' with h | h
      · cases h
      · have hbf := (List.mem_filter.mp h).2
        rw [Bool.not_eq_true'] at hbf
        exact contains_eq_false_iff.mp hbf

/-- C1 witness: a concrete database where the seed project p1 owns task
t1, the experiment-selector list is empty, and t1 indeed ends up in the
resulting Experiment set. -/
theorem closure_project_expansion_witness :
    ((DB.tasks ⟨[sampleProject], [sampleTask]⟩).map Task.id).Nodup ∧
    sampleTask ∈ Entities.tasks ⟨[sampleProject], [sampleTask]⟩ :=
  ⟨by decide,
   (closure_project_expansion ⟨[sampleProject], [sampleTask]⟩ [] ["p1"]
     sampleProject sampleTask [sampleProject]
     ⟨[sampleProject], [sampleTask]⟩ (by decide) (by rfl) (by decide)
     (by decide) (by decide) (by rfl) (by decide) (by rfl)).1⟩

/-- C1 counterexample to the claim as stated: a project whose identifier
is the empty string resolves into the seed set, its task is not an
explicitly-selected experiment, yet the task is absent from the resulting
Experiment set, because the source filters falsy project identifiers out
of the expansion query. -/
theorem closure_project_expansion_counterexample :
    resolveType (DB.projects ⟨[emptyIdProject], [emptyRefTask]⟩) Project.id
      Project.name ["empty-id project"] = .ok [emptyIdProject] ∧
    resolveEntities ⟨[emptyIdProject], [emptyRefTask]⟩ [] ["empty-id project"]
      = .ok ⟨[emptyIdProject], []⟩ ∧
    emptyRefTask ∈ DB.tasks ⟨[emptyIdProject], [emptyRefTask]⟩ ∧
    emptyRefTask.project = some emptyIdProject.id ∧
    emptyRefTask.id ∉ ([] : List String) ∧
    emptyRefTask ∉ Entities.tasks ⟨[emptyIdProject], []⟩ :=
  ⟨by rfl, by rfl, by decide, by rfl, by decide, by decide⟩

/-- C5 (amended): every Experiment in the resulting Experiment set whose
owning-project reference is non-empty and denotes a Project that exists in
the database has that exact owning Project present in the resulting
Project set.  The database projects are assumed unique by identifier (the
primary-key invariant); the non-empty proviso is forced by the source
filtering falsy references out of the backfill query. -/
theorem closure_project_backfill
    (db : DB) (experiments projects : List String) (ents : Entities)
    (t : Task) (p : Project) (ref : String)
    (hndp : (db.projects.map Project.id).Nodup)
    (hok : resolveEntities db experiments projects = .ok ents)
    (ht : t ∈ ents.tasks) (htp : t.project = some ref) (href : ref ≠ "")
    (hp : p ∈ db.projects) (hpid : p.id = ref) :
    p ∈ ents.projects := by
  obtain ⟨e1, h1, h2⟩ := except_bind_ok hok
  have he1sub : ∀ q ∈ e1.projects, q ∈ db.projects := by
    unfold projectStage at h1
    by_cases hpe : projects.isEmpty
    · rw [if_pos hpe] at h1
      injection h1 with h1'
      rw [← h1']
      intro q hq
      simp at hq
    · rw [if_neg hpe] at h1
      obtain ⟨rps, hres, hfeq⟩ := except_map_ok h1
      intro q hq
      rw [← hfeq] at hq
      simp only [projectStageFn] at hq
      rcases mem_of_mem_updateById hq with h | h
      · cases h
      · exact resolveType_sub hres q h
  have he1back : ∀ t' ∈ e1.tasks, ∀ r, t'.project = some r →
      ∃ q ∈ e1.projects, q.id = r := by
    unfold projectStage at h1
    by_cases hpe : projects.isEmpty
    · rw [if_pos hpe] at h1
      injection h1 with h1'
      rw [← h1']
      intro t' ht'
      simp at ht'
    · rw [if_neg hpe] at h1
      obtain ⟨rps, hres, hfeq⟩ := except_map_ok h1
      intro t' ht' r htp'
      rw [← hfeq] at ht' ⊢
      simp only [projectStageFn] at ht' ⊢
      rcases mem_of_mem_updateById ht' with h | h
      · cases h
      · have h' := (List.mem_filter.mp h).1
        have hcond := (List.mem_filter.mp h').2
        rw [htp'] at hcond
        have hr := contains_eq_true_iff.mp hcond
        unfold projectExpansionIds at hr
        rw [List.mem_dedup, List.mem_filter] at hr
        rcases List.mem_map.mp hr.1 with ⟨q, hq, hqid⟩
        exact ⟨q, hq, hqid⟩
  unfold experimentStage at h2
  by_cases hee : experiments.isEmpty
  · rw [if_pos hee] at h2
    injection h2 with h2'
    subst h2'
    rcases he1back t ht ref htp with ⟨q, hq, hqid⟩
    have hqp : q = p :=
      List.inj_on_of_nodup_map hndp (he1sub q hq) hp (by rw [hqid, hpid])
    exact hqp ▸ hq
  · rw [if_neg hee] at h2
    obtain ⟨rts, hrts, hteq⟩ := except_map_ok h2
    rw [← hteq] at ht ⊢
    simp only [experimentStageFn] at ht ⊢
    have hrefs : ref ∈ backfillRefIds (updateById Task.id e1.tasks rts) := by
      unfold backfillRefIds
      rw [List.mem_dedup, List.mem_filter]
      constructor
      · exact List.mem_filterMap.mpr ⟨t, ht, htp⟩
      · simp [href]
    by_cases hin : p.id ∈ e1.projects.map Project.id
    · rcases List.mem_map.mp hin with ⟨q, hq, hqid⟩
      have hqp : q = p :=
        List.inj_on_of_nodup_map hndp (he1sub q hq) hp hqid
      exact mem_updateById_left (hqp ▸ hq)
    · apply mem_updateById_of_mem
      · rw [List.mem_filter]
        constructor
        · rw [List.mem_filter]
          refine ⟨hp, ?_⟩
          rw [hpid]
          exact contains_eq_true_iff.mpr hrefs
        · rw [Bool.not_eq_true']
          exact contains_eq_false_iff.mpr hin
      · exact (((List.filter_sublist _).trans
          (List.filter_sublist _)).map Project.id).nodup hndp
      · intro y hy hyid
        exact hin (hyid ▸ List.mem_map.mpr ⟨y, hy, rfl⟩)

/-- C5 witness: a concrete run where experiment t1 is explicitly selected,
its owning-project reference p1 is non-empty and exists in the database,
and the backfill puts the owning project into the resulting Project set. -/
theorem closure_project_backfill_witness :
    ((DB.projects ⟨[sampleProject], [sampleTask]⟩).map Project.id).Nodup ∧
    sampleProject ∈ Entities.projects ⟨[sampleProject], [sampleTask]⟩ :=
  ⟨by decide,
   closure_project_backfill ⟨[sampleProject], [sampleTask]⟩ ["t1"] []
     ⟨[sampleProject], [sampleTask]⟩ sampleTask sampleProject "p1"
     (by decide) (by rfl) (by decide) (by rfl) (by decide) (by decide)
     (by rfl)⟩

/-- C5 counterexample to the claim as stated: a task with the non-null but
empty owning-project reference is selected, a project with that (empty)
identifier exists in the database, yet no project ends up in the resulting
Project set, because the source filters falsy references out of the
backfill query. -/
theorem closure_project_backfill_counterexample :
    resolveEntities ⟨[emptyIdProject], [emptyRefTask]⟩ ["te"] []
      = .ok ⟨[], [emptyRefTask]⟩ ∧
    emptyRefTask ∈ Entities.tasks ⟨[], [emptyRefTask]⟩ ∧
    emptyRefTask.project = some "" ∧
    emptyIdProject ∈ DB.projects ⟨[emptyIdProject], [emptyRefTask]⟩ ∧
    emptyIdProject.id = "" ∧
    emptyIdProject ∉ Entities.projects ⟨[], [emptyRefTask]⟩ :=
  ⟨by rfl, by decide, by rfl, by decide, by rfl, by decide⟩

/-- C10: the Closure Builder tolerates null or empty owning-project
references.  The id list of the project-driven expansion query contains no
empty identifier and only identifiers of seed projects (a project with an
empty identifier contributes nothing); the id list of the backfill query
contains no empty reference and only non-empty references of selected
tasks (a task with a null or empty reference contributes nothing, so no
lookup is attempted for it and no Project is added on its behalf); and
whenever the resolver calls succeed, the closure computation completes
without error. -/
theorem closure_null_ref_tolerance :
    (∀ ps : List Project, "" ∉ projectExpansionIds ps ∧
      ∀ s ∈ projectExpansionIds ps, s ≠ "" ∧ ∃ p ∈ ps, p.id = s) ∧
    (∀ ts : List Task, "" ∉ backfillRefIds ts ∧
      ∀ s ∈ backfillRefIds ts, s ≠ "" ∧ ∃ t ∈ ts, t.project = some s) ∧
    (∀ (db : DB) (experiments projects : List String),
      (projects ≠ [] →
        isOk (resolveType db.projects Project.id Project.name projects) = true) →
      (experiments ≠ [] →
        isOk (resolveType db.tasks Task.id Task.name experiments) = true) →
      isOk (resolveEntities db experiments projects) = true) := by
  refine ⟨?_, ?_, ?_⟩
  · intro ps
    constructor
    · intro h
      unfold projectExpansionIds at h
      rw [List.mem_dedup, List.mem_filter] at h
      simp at h
    · intro s hs
      unfold projectExpansionIds at hs
      rw [List.mem_dedup, List.mem_filter] at hs
      constructor
      · intro he
        subst he
        simp at hs
      · rcases List.mem_map.mp hs.1 with ⟨p, hp, hpid⟩
        exact ⟨p, hp, hpid⟩
  · intro ts
    constructor
    · intro h
      unfold backfillRefIds at h
      rw [List.mem_dedup, List.mem_filter] at h
      simp at h
    · intro s hs
      unfold backfillRefIds at hs
      rw [List.mem_dedup, List.mem_filter] at hs
      constructor
      · intro he
        subst he
        simp at hs
      · rcases List.mem_filterMap.mp hs.1 with ⟨t, ht, htp⟩
        exact ⟨t, ht, htp⟩
  · intro db experiments projects h1 h2
    have hps : ∃ e1, projectStage db experiments projects = .ok e1 := by
      unfold projectStage
      by_cases hpe : projects.isEmpty
      · rw [if_pos hpe]
        exact ⟨_, rfl⟩
      · rw [if_neg hpe]
        have hok := h1 (fun hnil => hpe (List.isEmpty_iff.mpr hnil))
        cases hrt : resolveType db.projects Project.id Project.name projects with
        | error e =>
          rw [hrt] at hok
          cases hok
        | ok v => exact ⟨_, rfl⟩
    obtain ⟨e1, he1⟩ := hps
    unfold resolveEntities
    rw [he1]
    show isOk (experimentStage db experiments e1) = true
    unfold experimentStage
    by_cases hee : experiments.isEmpty
    · rw [if_pos hee]
      rfl
    · rw [if_neg hee]
      have hok := h2 (fun hnil => hee (List.isEmpty_iff.mpr hnil))
      cases hrt : resolveType db.tasks Task.id Task.name experiments with
      | error e =>
        rw [hrt] at hok
        cases hok
      | ok v => rfl

/-- C10 witness: a database holding a project with an empty identifier and
tasks with a null, an empty and a proper owning-project reference; with
both resolver calls succeeding, the closure computation completes without
error. -/
theorem closure_null_ref_tolerance_witness :
    isOk (resolveEntities
      ⟨[emptyIdProject, sampleProject],
       [⟨"tn", "null-ref", none, none, none, "s", "c", none, none, none, 0,
         none, none, "", "", "u"⟩, emptyRefTask, sampleTask]⟩
      ["tn", "te", "t1"] ["p1"]) = true :=
  closure_null_ref_tolerance.2.2
    ⟨[emptyIdProject, sampleProject],
     [⟨"tn", "null-ref", none, none, none, "s", "c", none, none, none, 0,
       none, none, "", "", "u"⟩, emptyRefTask, sampleTask]⟩
    ["tn", "te", "t1"] ["p1"] (fun _ => by rfl) (fun _ => by rfl)

theorem length_filter_add_length_filter_not {α : Type} (p : α → Bool)
    (l : List α) :
    (l.filter p).length + (l.filter (fun x => !(p x))).length = l.length := by
  induction l with
  | nil => rfl
  | cons x xs ih => cases hx : p x <;> simp [List.filter_cons, hx] <;> omega

theorem resolveMissing_ok_length {α : Type} {records : List α}
    {getName : α → String} {acc : List α} {ms : List String} {l : List α}
    (h : resolveMissing records getName acc ms = .ok l) :
    l.length = acc.length + ms.length := by
  induction ms generalizing acc with
  | nil =>
    cases h
    simp
  | cons n rest ih =>
    unfold resolveMissing at h
    split at h
    · cases h
    · have hlen := ih h
      rw [hlen]
      simp
      omega
    · cases h

theorem resolveMissing_notFound {α : Type} {records : List α}
    {getName : α → String} {acc : List α} {ms : List String} {n : String}
    (h : resolveMissing records getName acc ms = .error (.notFound n)) :
    n ∈ ms ∧ records.filter (fun r => getName r == n) = [] := by
  induction ms generalizing acc with
  | nil => cases h
  | cons m rest ih =>
    unfold resolveMissing at h
    split at h
    · rename_i heq
      injection h with h'
      injection h' with h''
      subst h''
      exact ⟨List.mem_cons_self m rest, heq⟩
    · have ⟨hm, hf⟩ := ih h
      exact ⟨List.mem_cons_of_mem m hm, hf⟩
    · injection h with h'
      cases h'

theorem resolveMissing_ambiguous {α : Type} {records : List α}
    {getName : α → String} {acc : List α} {ms : List String} {n : String}
    (h : resolveMissing records getName acc ms = .error (.ambiguous n)) :
    n ∈ ms ∧ 2 ≤ (records.filter (fun r => getName r == n)).length := by
  induction ms generalizing acc with
  | nil => cases h
  | cons m rest ih =>
    unfold resolveMissing at h
    split at h
    · injection h with h'
      cases h'
    · have ⟨hm, hf⟩ := ih h
      exact ⟨List.mem_cons_of_mem m hm, hf⟩
    · rename_i hne1 hne2
      injection h with h'
      injection h' with h''
      subst h''
      refine ⟨List.mem_cons_self m rest, ?_⟩
      cases hf : records.filter (fun r => getName r == m) with
      | nil => exact absurd hf hne1
      | cons r rs' =>
        cases rs' with
        | nil => exact absurd hf (hne2 r)
        | cons r2 rs2 => simp

/-- The identifiers of the batch-lookup result are exactly the selectors
that some record identifier matches, counted without duplication. -/
theorem batch_items_length {α : Type} (records : List α) (getId : α → String)
    (idSet : List String) (hnd : (records.map getId).Nodup)
    (hnds : idSet.Nodup) :
    (records.filter (fun r => idSet.contains (getId r))).length
      = (idSet.filter (fun s => (records.map getId).contains s)).length := by
  have hndL : ((records.filter (fun r => idSet.contains (getId r))).map getId).Nodup :=
    ((List.filter_sublist _).map getId).nodup hnd
  have hndR : (idSet.filter (fun s => (records.map getId).contains s)).Nodup :=
    hnds.filter _
  have hperm : List.Perm
      ((records.filter (fun r => idSet.contains (getId r))).map getId)
      (idSet.filter (fun s => (records.map getId).contains s)) := by
    rw [List.perm_ext_iff_of_nodup hndL hndR]
    intro a
    rw [List.mem_filter, List.mem_map]
    constructor
    · rintro ⟨r, hr, rfl⟩
      have hr' := List.mem_filter.mp hr
      exact ⟨contains_eq_true_iff.mp hr'.2,
        contains_eq_true_iff.mpr (List.mem_map.mpr ⟨r, hr'.1, rfl⟩)⟩
    · rintro ⟨ha, hc⟩
      rcases List.mem_map.mp (contains_eq_true_iff.mp hc) with ⟨r, hr, rfl⟩
      exact ⟨r, List.mem_filter.mpr ⟨hr, contains_eq_true_iff.mpr ha⟩, rfl⟩
  calc (records.filter (fun r => idSet.contains (getId r))).length
      = ((records.filter (fun r => idSet.contains (getId r))).map getId).length :=
        (List.length_map _ _).symm
    _ = _ := hperm.length_eq

/-- Restricted to the selector set, testing membership among the matched
identifiers is the same as testing it among all record identifiers. -/
theorem missing_filter_eq {α : Type} (records : List α) (getId : α → String)
    (idSet : List String) :
    idSet.filter (fun s =>
      !(((records.filter (fun r => idSet.contains (getId r))).map getId).contains s))
      = idSet.filter (fun s => !((records.map getId).contains s)) := by
  apply List.filter_congr
  intro s hs
  have hc : ((records.filter (fun r => idSet.contains (getId r))).map getId).contains s
      = (records.map getId).contains s := by
    cases hrc : (records.map getId).contains s with
    | true =>
      rcases List.mem_map.mp (contains_eq_true_iff.mp hrc) with ⟨r, hr, rfl⟩
      exact contains_eq_true_iff.mpr (List.mem_map.mpr
        ⟨r, List.mem_filter.mpr ⟨hr, contains_eq_true_iff.mpr hs⟩, rfl⟩)
    | false =>
      apply contains_eq_false_iff.mpr
      intro hmem
      rcases List.mem_map.mp hmem with ⟨r, hr, rfl⟩
      exact contains_eq_false_iff.mp hrc
        (List.mem_map.mpr ⟨r, (List.mem_filter.mp hr).1, rfl⟩)
  rw [hc]

/-- C4: the Reference Resolver contract: for a database collection whose
records are unique by identifier, resolution returns exactly one record
per distinct selector (duplicate selectors collapse into one), or fails:
a not-found failure names a selector that matches no record identifier and
no record name, an ambiguity failure names a selector that matches no
record identifier but at least two record names. -/
theorem resolver_contract {α : Type} (records : List α)
    (getId getName : α → String) (ids : List String)
    (hnd : (records.map getId).Nodup) :
    (∀ res, resolveType records getId getName ids = .ok res →
      res.length = ids.dedup.length) ∧
    (∀ n, resolveType records getId getName ids = .error (.notFound n) →
      n ∈ ids ∧ (∀ r ∈ records, getId r ≠ n) ∧ (∀ r ∈ records, getName r ≠ n)) ∧
    (∀ n, resolveType records getId getName ids = .error (.ambiguous n) →
      n ∈ ids ∧ (∀ r ∈ records, getId r ≠ n) ∧
      2 ≤ (records.filter (fun r => getName r == n)).length) := by
  have hidnot : ∀ n, n ∈ ids.dedup.filter (fun s =>
      !(((records.filter (fun r => ids.dedup.contains (getId r))).map getId).contains s)) →
      ∀ r ∈ records, getId r ≠ n := by
    intro n hn r hr he
    have hn' := List.mem_filter.mp hn
    rw [Bool.not_eq_true'] at hn'
    apply contains_eq_false_iff.mp hn'.2
    exact List.mem_map.mpr
      ⟨r, List.mem_filter.mpr ⟨hr, contains_eq_true_iff.mpr (he ▸ hn'.1)⟩, he⟩
  refine ⟨?_, ?_, ?_⟩
  · intro res h
    unfold resolveType at h
    have hlen := resolveMissing_ok_length h
    rw [hlen, batch_items_length records getId ids.dedup hnd (List.nodup_dedup ids),
      missing_filter_eq records getId ids.dedup]
    exact length_filter_add_length_filter_not _ _
  · intro n h
    unfold resolveType at h
    obtain ⟨hmem, hfil⟩ := resolveMissing_notFound h
    refine ⟨List.mem_dedup.mp (List.mem_filter.mp hmem).1, hidnot n hmem, ?_⟩
    intro r hr he
    have : r ∈ records.filter (fun r => getName r == n) :=
      List.mem_filter.mpr ⟨hr, by simp [he]⟩
    rw [hfil] at this
    cases this
  · intro n h
    unfold resolveType at h
    obtain ⟨hmem, hfil⟩ := resolveMissing_ambiguous h
    exact ⟨List.mem_dedup.mp (List.mem_filter.mp hmem).1, hidnot n hmem, hfil⟩

/-- C4 witness: two records unique by identifier; the selector list holds
a duplicated identifier selector and a name selector, and resolution
returns exactly one record per distinct selector. -/
theorem resolver_contract_witness :
    (([sampleProject, emptyIdProject].map Project.id).Nodup) ∧
    resolveType [sampleProject, emptyIdProject] Project.id Project.name
      ["p1", "p1", "proj one"] = .ok [sampleProject, sampleProject] ∧
    [sampleProject, sampleProject].length
      = (["p1", "p1", "proj one"].dedup).length :=
  ⟨by decide, by rfl,
   (resolver_contract [sampleProject, emptyIdProject] Project.id Project.name
     ["p1", "p1", "proj one"] (by decide)).1
     [sampleProject, sampleProject] (by rfl)⟩

theorem applyUserOverride_false {α : Type} (setUser : α → String → α)
    (userId : Option String) (d : α) :
    applyUserOverride false setUser userId d = d := by
  cases userId <;> rfl

theorem applyUserOverride_none {α : Type} (hasUser : Bool)
    (setUser : α → String → α) (d : α) :
    applyUserOverride hasUser setUser none d = d := rfl

/-- C9: the import user override: when an override identity is supplied
and the document kind carries a user attribute, every persisted document
has its user equal to the override, regardless of the archived value; when
the kind carries no user attribute, and likewise when no override is
supplied, the member import persists exactly the archived documents
unchanged. -/
theorem import_user_override {α : Type} (fromJson : List Char → Option α)
    (getUser : α → String) (setUser : α → String → α)
    (hset : ∀ d u, getUser (setUser d u) = u)
    (lines : List (List Char)) (u : String) :
    (∀ d ∈ (importMember fromJson true setUser (some u) lines).1,
      getUser d = u) ∧
    (∀ userId, importMember fromJson false setUser userId lines
      = readArchivedDocs fromJson lines) ∧
    (∀ hasUser, importMember fromJson hasUser setUser none lines
      = readArchivedDocs fromJson lines) := by
  refine ⟨?_, ?_, ?_⟩
  · induction lines with
    | nil =>
      intro d hd
      simp [importMember] at hd
    | cons l rest ih =>
      intro d hd
      simp only [importMember] at hd
      by_cases hi : (stripLine l).isEmpty
      · rw [if_pos hi] at hd
        exact ih d hd
      · rw [if_neg hi] at hd
        cases hj : fromJson (stripLine l) with
        | none =>
          rw [hj] at hd
          simp at hd
        | some doc =>
          rw [hj] at hd
          simp only [applyUserOverride, if_pos] at hd
          rcases List.mem_cons.mp hd with h' | h'
          · rw [h']
            exact hset doc u
          · exact ih d h'
  · intro userId
    induction lines with
    | nil => rfl
    | cons l rest ih =>
      simp only [importMember, readArchivedDocs]
      by_cases hi : (stripLine l).isEmpty
      · simp only [if_pos hi]
        exact ih
      · simp only [if_neg hi]
        cases hj : fromJson (stripLine l) with
        | none => rfl
        | some doc => simp [applyUserOverride_false, ih]
  · intro hasUser
    induction lines with
    | nil => rfl
    | cons l rest ih =>
      simp only [importMember, readArchivedDocs]
      by_cases hi : (stripLine l).isEmpty
      · simp only [if_pos hi]
        exact ih
      · simp only [if_neg hi]
        cases hj : fromJson (stripLine l) with
        | none => rfl
        | some doc => simp [applyUserOverride_none, ih]

/-- C9 witness: a one-line member holding one archived task with user
alice; importing with override identity "o" persists the task with user
"o". -/
theorem import_user_override_witness :
    (∀ (d : Task) (u : String), Task.user (setTaskUser d u) = u) ∧
    Task.user (setTaskUser sampleTask "o") = "o" :=
  ⟨fun _ _ => rfl,
   (import_user_override
     (fun cs => if cs = "t".data then some sampleTask else none)
     Task.user setTaskUser (fun _ _ => rfl) ["t".data] "o").1
     (setTaskUser sampleTask "o") (by decide)⟩

/-- Splitting distributes over a newline that follows newline-free text. -/
theorem splitLines_append {a : List Char} (b : List Char) (h : '\n' ∉ a) :
    splitLines (a ++ '\n' :: b) = a :: splitLines b := by
  induction a with
  | nil => simp [splitLines]
  | cons c cs ih =>
    have hc : c ≠ '\n' := fun he => h (he ▸ List.mem_cons_self c cs)
    have h' : '\n' ∉ cs := fun hm => h (List.mem_cons_of_mem c hm)
    have hcb : (c == '\n') = false := by simp [hc]
    simp [splitLines, ih h', hcb]

/-- The physical lines of a member body: the opening bracket, each record
JSON form with its separating comma kept on all but the last, the closing
bracket, and the empty trailing piece. -/
theorem splitLines_memberBody (jsons : List (List Char))
    (h : ∀ j ∈ jsons, '\n' ∉ j) :
    splitLines (memberBody jsons) = ['['] :: (itemLines jsons ++ [[']'], []]) := by
  have hbody : ∀ (js : List (List Char)), (∀ j ∈ js, '\n' ∉ j) →
      splitLines (bodyLines js ++ [']', '\n']) = itemLines js ++ [[']'], []] := by
    intro js
    induction js with
    | nil =>
      intro _
      rfl
    | cons j rest ih =>
      intro hj
      cases rest with
      | nil =>
        have he : bodyLines [j] ++ [']', '\n'] = j ++ '\n' :: [']', '\n'] := by
          simp [bodyLines]
        rw [he, splitLines_append _ (hj j (List.mem_cons_self j []))]
        rfl
      | cons k rest2 =>
        have he : bodyLines (j :: k :: rest2) ++ [']', '\n']
            = (j ++ [',']) ++ '\n' :: (bodyLines (k :: rest2) ++ [']', '\n']) := by
          simp [bodyLines]
        have hnc : '\n' ∉ j ++ [','] := by
          intro hm
          rcases List.mem_append.mp hm with hm' | hm'
          · exact hj j (List.mem_cons_self j _) hm'
          · simp at hm'
        rw [he, splitLines_append _ hnc,
          ih (fun j' hj' => hj j' (List.mem_cons_of_mem j hj'))]
        rfl
  have hm : memberBody jsons = ['['] ++ '\n' :: (bodyLines jsons ++ [']', '\n']) := by
    simp [memberBody]
  rw [hm, splitLines_append _ (by decide), hbody jsons h]

/-- The per-member import loop inverts the comma-separated line block that
the writer produced, given clean and round-tripping JSON forms. -/
theorem importMember_itemLines {α : Type} (fromJson : List Char → Option α)
    (hasUser : Bool) (setUser : α → String → α) (toJson : α → List Char) :
    ∀ (xs : List α),
      (∀ x ∈ xs, cleanJson (toJson x) ∧ fromJson (toJson x) = some x) →
      importMember fromJson hasUser setUser none
        (itemLines (xs.map toJson) ++ [[']'], []]) = (xs, true) := by
  intro xs
  induction xs with
  | nil =>
    intro _
    have h1 : stripLine [']'] = [] := by decide
    simp [importMember, itemLines, h1, stripLine, stripWs, lstripChar,
      rstripChar]
  | cons x rest ih =>
    intro h
    have hx := h x (List.mem_cons_self x rest)
    have hne : (toJson x).isEmpty = false := by
      cases htj : toJson x with
      | nil => exact absurd htj hx.1.1
      | cons a b => rfl
    have hrest := ih (fun y hy => h y (List.mem_cons_of_mem x hy))
    cases rest with
    | nil =>
      simp only [List.map_cons, List.map_nil, itemLines, List.cons_append,
        importMember, hx.1.2.2.1, hne, hx.2]
      have h2 : stripLine [']'] = [] := by decide
      have h3 : stripLine ([] : List Char) = [] := rfl
      simp [h2, h3, applyUserOverride_none]
    | cons y rest2 =>
      simp only [List.map_cons, itemLines, List.cons_append, importMember,
        hx.1.2.2.2, hne, hx.2]
      simp only [List.map_cons] at hrest
      simp [hrest, applyUserOverride_none]

/-- One full member as written by the export inverts to the records it was
written from. -/
theorem importMember_memberBody {α : Type} (fromJson : List Char → Option α)
    (hasUser : Bool) (setUser : α → String → α) (toJson : α → List Char)
    (xs : List α)
    (h : ∀ x ∈ xs, cleanJson (toJson x) ∧ fromJson (toJson x) = some x) :
    importMember fromJson hasUser setUser none
      (splitLines (memberBody (xs.map toJson))) = (xs, true) := by
  rw [splitLines_memberBody _ (by
    intro j hj
    rcases List.mem_map.mp hj with ⟨x, hx, rfl⟩
    exact (h x hx).1.2.1)]
  have h1 : stripLine ['['] = [] := by decide
  have hskip : importMember fromJson hasUser setUser none
      (['['] :: (itemLines (xs.map toJson) ++ [[']'], []]))
      = importMember fromJson hasUser setUser none
        (itemLines (xs.map toJson) ++ [[']'], []]) := by
    simp [importMember, h1]
  rw [hskip]
  exact importMember_itemLines fromJson hasUser setUser toJson xs h

/-- C6: the round trip: exporting a selection set whose kinds are unique
by identifier (so that importing into an empty destination raises no
duplicate-key failure) and importing the resulting archive yields exactly
the original records, except that each Experiment comes back sanitized,
differing from its original only in the Sanitizer-modified fields.  The
external serializer is assumed to round-trip each written record and to
produce clean single-line JSON forms. -/
theorem export_import_round_trip (pc : Codec Project) (tc : Codec Task)
    (now : Nat) (ents : Entities)
    (_hpnd : (ents.projects.map Project.id).Nodup)
    (_htnd : (ents.tasks.map Task.id).Nodup)
    (hpj : ∀ p ∈ ents.projects,
      cleanJson (pc.toJson p) ∧ pc.fromJson (pc.toJson p) = some p)
    (htj : ∀ t ∈ ents.tasks,
      cleanJson (tc.toJson (cleanupTask now t)) ∧
        tc.fromJson (tc.toJson (cleanupTask now t)) = some (cleanupTask now t)) :
    importArchive pc tc none (exportMembers pc tc now ents)
      = (ents.projects.map ImportedDoc.project
          ++ (ents.tasks.map (cleanupTask now)).map ImportedDoc.task, true) := by
  have hcfp : classFor projectFileName = some Kind.project := by decide
  have hcft : classFor taskFileName = some Kind.task := by decide
  have hresp := importMember_memberBody pc.fromJson (kindHasUser .project)
    setProjectUser pc.toJson ents.projects hpj
  have hrest := importMember_memberBody tc.fromJson (kindHasUser .task)
    setTaskUser tc.toJson (ents.tasks.map (cleanupTask now)) (by
      intro y hy
      rcases List.mem_map.mp hy with ⟨t, ht', rfl⟩
      exact htj t ht')
  by_cases hp : ents.projects.isEmpty <;> by_cases ht : ents.tasks.isEmpty
  · have hp' := List.isEmpty_iff.mp hp
    have ht' := List.isEmpty_iff.mp ht
    simp [exportMembers, hp, ht, hp', ht', importArchive]
  · have hp' := List.isEmpty_iff.mp hp
    simp only [exportMembers, if_pos hp, if_neg ht, List.nil_append]
    simp only [importArchive, hcft, hrest]
    simp [hp']
  · have ht' := List.isEmpty_iff.mp ht
    simp only [exportMembers, if_neg hp, if_pos ht, List.append_nil]
    simp only [importArchive, hcfp, hresp]
    simp [ht']
  · simp only [exportMembers, if_neg hp, if_neg ht, List.cons_append,
      List.nil_append]
    simp only [importArchive, hcfp, hcft, hresp, hrest]
    simp

/-- C6 witness: one project and one task, serialized by the concrete tiny
codecs; the archive written from them imports back to the project
unchanged and the task sanitized. -/
theorem export_import_round_trip_witness :
    cleanJson (tinyProjectCodec.toJson sampleProject) ∧
    importArchive tinyProjectCodec tinyTaskCodec none
      (exportMembers tinyProjectCodec tinyTaskCodec 0
        ⟨[sampleProject], [sampleTask]⟩)
      = ([ImportedDoc.project sampleProject,
          ImportedDoc.task (cleanupTask 0 sampleTask)], true) :=
  ⟨by unfold cleanJson; exact ⟨by decide, by decide, by decide, by decide⟩,
   export_import_round_trip tinyProjectCodec tinyTaskCodec 0
     ⟨[sampleProject], [sampleTask]⟩ (by decide) (by decide)
     (by
       intro p hp
       rw [List.mem_singleton] at hp
       subst hp
       refine ⟨?_, by decide⟩
       unfold cleanJson
       exact ⟨by decide, by decide, by decide, by decide⟩)
     (by
       intro t ht
       rw [List.mem_singleton] at ht
       subst ht
       refine ⟨?_, by decide⟩
       unfold cleanJson
       exact ⟨by decide, by decide, by decide, by decide⟩)⟩

end Theorems

end PrePopulate
